import Mathlib

/-!
Verification of the CRP mixture-model Gibbs sampler
(`src/chinese_restaurant_no_log.js`, which concatenates a linear-probability
module and a log-probability module sharing `remove_doc` / `add_doc`).

JavaScript objects used as dictionaries are modelled as association lists:
assigning to an existing key updates the entry in place, assigning to a fresh
key appends it, and `delete` removes the entry.  Iteration order of the
modelled dictionaries is list order, which matches the JavaScript iteration
order of the states the program actually builds (table keys are created in
ascending numeric order and JavaScript enumerates integer-like keys
ascending).  JavaScript numbers are modelled exactly: the integer-valued
counters as `Int`, probabilities as `Rat` (linear module) and `Real`
(log module).
-/

set_option maxRecDepth 4000

/-- Keys of an association list, in iteration order. -/
def keysOf {α β : Type} (l : List (α × β)) : List α := l.map Prod.fst

/-- Dictionary read `obj[key]` (own properties only). -/
def alGet? {α β : Type} [DecidableEq α] : List (α × β) → α → Option β
  | [], _ => none
  | (k, v) :: rest, key => if key = k then some v else alGet? rest key

/-- Dictionary write `obj[key] = val`: update in place, or append a fresh key. -/
def alSet {α β : Type} [DecidableEq α] : List (α × β) → α → β → List (α × β)
  | [], key, val => [(key, val)]
  | (k, v) :: rest, key, val =>
    if key = k then (k, val) :: rest else (k, v) :: alSet rest key val

/-- Dictionary `delete obj[key]`. -/
def alErase {α β : Type} [DecidableEq α] : List (α × β) → α → List (α × β)
  | [], _ => []
  | (k, v) :: rest, key => if key = k then rest else (k, v) :: alErase rest key

/-- A table (cluster): document count, total word count, per-word counts. -/
structure Table where
  num_docs : Int
  num_words : Int
  word_counts : List (String × Int)
  deriving DecidableEq

/-- The inference state threaded through every operation. -/
structure CRPState where
  assignments : List (String × Nat)
  tables : List (Nat × Table)
  total_docs : Int
  nextID : Nat
  alpha : Rat
  beta : Rat
  W : Nat
  vocab : List (String × Int)
  deriving DecidableEq

/-- `prob_of_table(count, total, alpha)`: the CRP prior weight of a table.
JavaScript `if (count)` tests number truthiness, i.e. `count ≠ 0`. -/
def prob_of_table (count total : Int) (alpha : Rat) : Rat :=
  if count ≠ 0 then (count : Rat) / ((total : Rat) + alpha)
  else alpha / ((total : Rat) + alpha)

/-- Loop body of `prob_of_words_given_table`: `j` is the position,
`local_counts` the per-word occurrence counts inside the document so far,
`prob` the running product. -/
def pwGo (word_counts : List (String × Int)) (word_total : Int) (beta : Rat)
    (W : Nat) : List String → Nat → List (String × Nat) → Rat → Rat
  | [], _, _, prob => prob
  | word :: rest, j, local_counts, prob =>
    let count : Int := (alGet? word_counts word).getD 0
    let local_count : Nat := (alGet? local_counts word).getD 0
    pwGo word_counts word_total beta W rest (j + 1)
      (alSet local_counts word (local_count + 1))
      (prob * (((local_count : Rat) + (count : Rat) + beta) /
        ((j : Rat) + (word_total : Rat) + (W : Rat) * beta)))

/-- `prob_of_words_given_table(words, word_counts, word_total, beta, W)`. -/
def prob_of_words_given_table (words : List String)
    (word_counts : List (String × Int)) (word_total : Int) (beta : Rat)
    (W : Nat) : Rat :=
  pwGo word_counts word_total beta W words 0 [] 1

/-- Threshold walk of `sample`: subtract each weight, return the key once the
threshold goes negative; `none` when the loop falls through. -/
def sampleGo : List (Nat × Rat) → Rat → Option Nat
  | [], _ => none
  | (key, p) :: rest, threshold =>
    if threshold - p < 0 then some key else sampleGo rest (threshold - p)

/-- `sample(unnormalized_probabilities)` with the uniform draw `u` made an
explicit argument (the source calls `Math.random()`).  On fall-through the
source returns the last key (for an empty dictionary it would return
`undefined`; the callers always pass a nonempty dictionary, `0` stands in). -/
def sample (l : List (Nat × Rat)) (u : Rat) : Nat :=
  let total := (l.map Prod.snd).sum
  match sampleGo l (u * total) with
  | some key => key
  | none => ((l.getLast?).map Prod.fst).getD 0

/-- One step of the word-count decrement loop of `remove_doc`:
`word_counts[word]--`, then `delete` when the count reaches `0` exactly.
(On a key that is absent the source would store `NaN`, which never equals
`0`; `-1` stands in for that junk value.  The callers only reach this with
the document's words present.) -/
def decWordCount (wc : List (String × Int)) (word : String) :
    List (String × Int) :=
  match alGet? wc word with
  | some c => if c - 1 = 0 then alErase wc word else alSet wc word (c - 1)
  | none => alSet wc word (-1)

/-- `remove_doc(docID, words, state)`: unseat the document from its current
table, garbage-collecting the table when it empties.  Note the source does
NOT touch `total_docs` here.  (When the document is unassigned, or its table
record is missing, the source would throw before mutating anything; the
state is returned unchanged, matching the no-mutation outcome.) -/
def remove_doc (docID : String) (words : List String) (s : CRPState) :
    CRPState :=
  match alGet? s.assignments docID with
  | none => s
  | some tableID =>
    match alGet? s.tables tableID with
    | none => s
    | some table =>
      let table' : Table :=
        ⟨table.num_docs - 1, table.num_words - (words.length : Int),
          words.foldl decWordCount table.word_counts⟩
      let tables' :=
        if table'.num_docs = 0 then alErase s.tables tableID
        else alSet s.tables tableID table'
      { s with tables := tables' }

/-- One step of the word-count increment loop of `add_doc`. -/
def incWordCount (wc : List (String × Int)) (word : String) :
    List (String × Int) :=
  match alGet? wc word with
  | some c => alSet wc word (c + 1)
  | none => alSet wc word 1

/-- `add_doc(docID, words, tableID, state)`: record the assignment,
materialize the table when `tableID` is unknown (advancing `nextID`), and
fold the document's statistics in. -/
def add_doc (docID : String) (words : List String) (tableID : Nat)
    (s : CRPState) : CRPState :=
  let s1 :=
    if (alGet? s.tables tableID).isSome then s
    else { s with nextID := s.nextID + 1,
                  tables := alSet s.tables tableID ⟨0, 0, []⟩ }
  let table := (alGet? s1.tables tableID).getD ⟨0, 0, []⟩
  let table' : Table :=
    ⟨table.num_docs + 1, table.num_words + (words.length : Int),
      words.foldl incWordCount table.word_counts⟩
  { s1 with assignments := alSet s1.assignments docID tableID,
            tables := alSet s1.tables tableID table',
            total_docs := s1.total_docs + 1 }

/-- Vocabulary pass of `initialize_state`: count each token, bumping `W` the
first time a word type is seen. -/
def addVocabWord (s : CRPState) (word : String) : CRPState :=
  match alGet? s.vocab word with
  | some c => { s with vocab := alSet s.vocab word (c + 1) }
  | none => { s with W := s.W + 1, vocab := alSet s.vocab word 1 }

/-- `initialize_state(corpus, alpha, beta)`: start from the empty state and
seat every document at its own fresh table (`state.nextID`), accumulating the
vocabulary first.  The source stores `alpha` and `beta` without any
validation. -/
def initialize_state (corpus : List (String × List String))
    (alpha beta : Rat) : CRPState :=
  corpus.foldl
    (fun s doc => add_doc doc.1 doc.2 s.nextID (doc.2.foldl addVocabWord s))
    ⟨[], [], 0, 0, alpha, beta, 0, []⟩

/-- The unnormalized weight `prob_of_table * prob_of_words_given_table` that
`sample_table` computes for one occupied table. -/
def tableWeight (words : List String) (s : CRPState) (table : Table) : Rat :=
  prob_of_table table.num_docs s.total_docs s.alpha *
    prob_of_words_given_table words table.word_counts table.num_words s.beta
      s.W

/-- Body of `sample_table` once `corpus[docID]` has resolved to `words`:
remove the document when assigned, build the weights for every occupied
table plus the fresh table `state.nextID`, sample, and add. -/
def reseat_core (u : Rat) (docID : String) (words : List String)
    (s : CRPState) : CRPState :=
  let s1 :=
    if (alGet? s.assignments docID).isSome then remove_doc docID words s
    else s
  let probs : List (Nat × Rat) :=
    (s1.tables.map (fun p => (p.1, tableWeight words s1 p.2))) ++
      [(s1.nextID,
        prob_of_table 0 s1.total_docs s1.alpha *
          prob_of_words_given_table words [] 0 s1.beta s1.W)]
  add_doc docID words (sample probs u) s1

/-- `sample_table(docID, corpus, state)`.  When `docID` is not a key of
`corpus`, `words` is `undefined` and the source throws a `TypeError` at the
first `words.length` access — inside `remove_doc`'s loop header when the
document is assigned, inside the first `prob_of_words_given_table` call
otherwise — in every case before any state mutation; the `Except.error`
carries the state at the throw, which is the original state. -/
def sample_table (u : Rat) (docID : String)
    (corpus : List (String × List String)) (s : CRPState) :
    Except CRPState CRPState :=
  match alGet? corpus docID with
  | none => Except.error s
  | some words => Except.ok (reseat_core u docID words s)

/-- States reachable from `initialize` by any sequence of completed
`sample_table` calls against a fixed corpus (the uniform draw of each call
is arbitrary). -/
inductive Reach (corpus : List (String × List String)) : CRPState → Prop where
  | init : ∀ alpha beta, Reach corpus (initialize_state corpus alpha beta)
  | step : ∀ u docID s s1, Reach corpus s →
      sample_table u docID corpus s = Except.ok s1 → Reach corpus s1

/-- The corpus of the spec's worked example. -/
def exampleCorpus : List (String × List String) :=
  [("d1", ["a", "b"]), ("d2", ["a", "a"])]

/-- The example state: `initialize(corpus, alpha=1, beta=0.5)`. -/
def exampleInit : CRPState := initialize_state exampleCorpus 1 (1 / 2)

/-! ### The log-probability module -/

/-- `log_prob_table(count, total, alpha)` of the log module. -/
noncomputable def log_prob_table (count total : Int) (alpha : Real) : Real :=
  if count ≠ 0 then Real.log ((count : Real) / ((total : Real) + alpha))
  else Real.log (alpha / ((total : Real) + alpha))

/-- Loop body of `log_prob_words_given_table` (same loop as `pwGo`, with a
running sum of logarithms instead of a running product). -/
noncomputable def lpwGo (word_counts : List (String × Int)) (word_total : Int)
    (beta : Real) (W : Nat) :
    List String → Nat → List (String × Nat) → Real → Real
  | [], _, _, lp => lp
  | word :: rest, j, local_counts, lp =>
    let count : Int := (alGet? word_counts word).getD 0
    let local_count : Nat := (alGet? local_counts word).getD 0
    lpwGo word_counts word_total beta W rest (j + 1)
      (alSet local_counts word (local_count + 1))
      (lp + Real.log (((local_count : Real) + (count : Real) + beta) /
        ((j : Real) + (word_total : Real) + (W : Real) * beta)))

/-- `log_prob_words_given_table(words, word_counts, word_total, beta, W)`. -/
noncomputable def log_prob_words_given_table (words : List String)
    (word_counts : List (String × Int)) (word_total : Int) (beta : Real)
    (W : Nat) : Real :=
  lpwGo word_counts word_total beta W words 0 [] 0

/-- `log_sample` begins with `log_un_ps.sort()` — JavaScript's
comparator-less sort, which orders the `[log_weight, tableID]` pairs
lexicographically on their decimal string forms (`"-10,1" < "-2,0"` but
`"-2,0" < "-3,1"`).  That string order is not expressible over real-number
log-weights, so — exactly like the `Math.random()` draw, which is passed in
as the explicit argument `u` — the embedded `log_sample` takes the
already-sorted array as its argument.  The function works only on that
array, so this loses nothing: the general theorems below hold for every
permutation of the candidates the sort could produce, and each concrete
theorem passes the array that JavaScript's string comparison actually
yields for its input, which the doc comment hand-traces.

`log_sample_shift` is the source's variable `max`, read off as
`log_un_ps[0][0]` after the sort (for an empty array the source would
throw; `0` stands in, the callers pass nonempty arrays). -/
noncomputable def log_sample_shift (sorted : List (Real × Nat)) : Real :=
  (sorted.head?.map Prod.fst).getD 0

/-- The log-normalization constant `max + log(sum(exp(lw - max)))` computed
by `log_sample` over the sorted array, with `max` the source's variable of
that name (`log_sample_shift`, the head of the sorted array). -/
noncomputable def log_norm_const (sorted : List (Real × Nat)) : Real :=
  log_sample_shift sorted +
    Real.log ((sorted.map
      (fun p => Real.exp (p.1 - log_sample_shift sorted))).sum)

/-- Cumulative walk of `log_sample`: `acc` is `sum_of_exp`; return the first
candidate whose cumulative log-probability exceeds `log u`. -/
noncomputable def logGo (c lognorm logu : Real) :
    List (Real × Nat) → Real → Option Nat
  | [], _ => none
  | (lw, key) :: rest, acc =>
    if logu < c + Real.log (acc + Real.exp (lw - c)) - lognorm then some key
    else logGo c lognorm logu rest (acc + Real.exp (lw - c))

/-- `log_sample(log_un_ps)` with the uniform draw `u` explicit and the
post-`sort()` array passed in (see `log_sample_shift`); on fall-through the
source returns the last candidate of the sorted array. -/
noncomputable def log_sample (sorted : List (Real × Nat)) (u : Real) : Nat :=
  match logGo (log_sample_shift sorted) (log_norm_const sorted) (Real.log u)
      sorted 0 with
  | some key => key
  | none => ((sorted.getLast?).map Prod.snd).getD 0

/-- `sample` at the real-number reading of JavaScript floats (the identical
source function as `sampleGo`/`sample`, stated over `Real` so that it can be
compared against the transcendental log module). -/
noncomputable def sampleGoR : List (Nat × Real) → Real → Option Nat
  | [], _ => none
  | (key, p) :: rest, threshold =>
    if threshold - p < 0 then some key else sampleGoR rest (threshold - p)

/-- `sample(unnormalized_probabilities)` over `Real`; see `sample`. -/
noncomputable def sampleR (l : List (Nat × Real)) (u : Real) : Nat :=
  match sampleGoR l (u * (l.map Prod.snd).sum) with
  | some key => key
  | none => ((l.getLast?).map Prod.fst).getD 0

/-! ### Formulas as the specification words them -/

/-- The factor the spec prescribes for position `j` of the document:
`(existing_count(word_j) + running_count_within_this_document(word_j) + beta)
/ (j + cluster_word_total + W * beta)`, with `existing_count` the cluster
count before the document is added and the running count the number of
occurrences of `word_j` among the earlier positions of the same document. -/
def specWordFactor (words : List String) (word_counts : List (String × Int))
    (word_total : Int) (beta : Rat) (W : Nat) (j : Nat) : Rat :=
  ((((alGet? word_counts (words.getD j "")).getD 0 : Int) : Rat) +
      (((words.take j).count (words.getD j "") : Nat) : Rat) + beta) /
    ((j : Rat) + (word_total : Rat) + (W : Rat) * beta)

/-- `specWordFactor` over the reals, for the log module. -/
noncomputable def specWordFactorR (words : List String)
    (word_counts : List (String × Int)) (word_total : Int) (beta : Real)
    (W : Nat) (j : Nat) : Real :=
  ((((alGet? word_counts (words.getD j "")).getD 0 : Int) : Real) +
      (((words.take j).count (words.getD j "") : Nat) : Real) + beta) /
    ((j : Real) + (word_total : Real) + (W : Real) * beta)

/-- Decidable check that no table in the store is empty. -/
def noEmptyTables (s : CRPState) : Bool :=
  s.tables.all (fun p => decide (p.2.num_docs ≠ 0))

/-- A hand-built well-formed state with two documents seated at one table,
used to exercise `remove_doc` without the table being garbage-collected. -/
def twoDocState : CRPState :=
  ⟨[("d1", 5), ("d2", 5)], [(5, ⟨2, 4, [("a", 3), ("b", 1)]⟩)], 2, 6, 1,
    1 / 2, 2, [("a", 3), ("b", 1)]⟩

/-- Number of assignment entries seated at table `t`. -/
def countAt : List (String × Nat) → Nat → Nat
  | [], _ => 0
  | p :: rest, t => countAt rest t + (if p.2 = t then 1 else 0)

/-- The structural invariants of a state between operations: dictionary keys
are unique, every table key is below `nextID`, every table's `num_docs`
counts exactly the assignment entries seated there, no table is empty, and
every assignment points at a live table. -/
structure WF (s : CRPState) : Prop where
  nodupA : (keysOf s.assignments).Nodup
  nodupT : (keysOf s.tables).Nodup
  ltNext : ∀ p ∈ s.tables, p.1 < s.nextID
  docsCount : ∀ p ∈ s.tables, p.2.num_docs = (countAt s.assignments p.1 : Int)
  nonemptyT : ∀ p ∈ s.tables, p.2.num_docs ≠ 0
  assignedLive : ∀ p ∈ s.assignments, p.2 ∈ keysOf s.tables

/-- Invariants in the middle of a reseat, after the document `d` has been
removed: its stale assignment entry is ignored. -/
structure WFmid (d : String) (s : CRPState) : Prop where
  nodupA : (keysOf s.assignments).Nodup
  nodupT : (keysOf s.tables).Nodup
  ltNext : ∀ p ∈ s.tables, p.1 < s.nextID
  docsCount : ∀ p ∈ s.tables,
    p.2.num_docs = (countAt (alErase s.assignments d) p.1 : Int)
  nonemptyT : ∀ p ∈ s.tables, p.2.num_docs ≠ 0
  assignedLive : ∀ p ∈ alErase s.assignments d, p.2 ∈ keysOf s.tables

/-! ### Association-list lemmas -/

theorem keysOf_nil {α β : Type} : keysOf ([] : List (α × β)) = [] := rfl

theorem keysOf_cons {α β : Type} (a : α) (b : β) (l : List (α × β)) :
    keysOf ((a, b) :: l) = a :: keysOf l := rfl

theorem keysOf_mem_of_mem {α β : Type} {l : List (α × β)} {p : α × β}
    (h : p ∈ l) : p.1 ∈ keysOf l := List.mem_map_of_mem Prod.fst h

theorem alGet?_eq_none_iff {α β : Type} [DecidableEq α] (l : List (α × β))
    (k : α) : alGet? l k = none ↔ k ∉ keysOf l := by
  induction l with
  | nil => simp [alGet?, keysOf_nil]
  | cons p rest ih =>
    obtain ⟨a, b⟩ := p
    by_cases h : k = a <;>
      simp [alGet?, keysOf_cons, h, ih]

theorem mem_of_alGet?_eq_some {α β : Type} [DecidableEq α]
    {l : List (α × β)} {k : α} {v : β} (h : alGet? l k = some v) :
    (k, v) ∈ l := by
  induction l with
  | nil => simp [alGet?] at h
  | cons p rest ih =>
    obtain ⟨a, b⟩ := p
    by_cases hk : k = a
    · subst hk
      simp [alGet?] at h
      simp [h]
    · simp [alGet?, hk] at h
      simp [ih h]

theorem alGet?_isSome_iff {α β : Type} [DecidableEq α] (l : List (α × β))
    (k : α) : (alGet? l k).isSome = true ↔ k ∈ keysOf l := by
  rw [Option.isSome_iff_ne_none, ne_eq, alGet?_eq_none_iff, not_not]

theorem alGet?_eq_some_of_mem_keys {α β : Type} [DecidableEq α]
    {l : List (α × β)} {k : α} (h : k ∈ keysOf l) :
    ∃ v, alGet? l k = some v := by
  rcases ho : alGet? l k with _ | v
  · rw [alGet?_eq_none_iff] at ho
    exact absurd h ho
  · exact ⟨v, rfl⟩

theorem alGet?_alSet_self {α β : Type} [DecidableEq α] (l : List (α × β))
    (k : α) (v : β) : alGet? (alSet l k v) k = some v := by
  induction l with
  | nil => simp [alSet, alGet?]
  | cons p rest ih =>
    obtain ⟨a, b⟩ := p
    by_cases h : k = a <;> simp [alSet, alGet?, h, ih]

theorem alGet?_alSet_ne {α β : Type} [DecidableEq α] (l : List (α × β))
    (k k' : α) (v : β) (h : k' ≠ k) :
    alGet? (alSet l k v) k' = alGet? l k' := by
  induction l with
  | nil => simp [alSet, alGet?, h]
  | cons p rest ih =>
    obtain ⟨a, b⟩ := p
    by_cases ha : k = a
    · subst ha
      simp [alSet, alGet?, h]
    · by_cases ha' : k' = a <;> simp [alSet, alGet?, ha, ha', ih]

theorem keysOf_alSet_of_mem {α β : Type} [DecidableEq α] {l : List (α × β)}
    {k : α} (v : β) (h : k ∈ keysOf l) :
    keysOf (alSet l k v) = keysOf l := by
  induction l with
  | nil => simp [keysOf_nil] at h
  | cons p rest ih =>
    obtain ⟨a, b⟩ := p
    by_cases hk : k = a
    · simp [alSet, keysOf_cons, hk]
    · rw [keysOf_cons] at h
      rcases List.mem_cons.1 h with h1 | h1
      · exact absurd h1 hk
      · simp [alSet, keysOf_cons, hk, ih h1]

theorem keysOf_alSet_of_not_mem {α β : Type} [DecidableEq α]
    {l : List (α × β)} {k : α} (v : β) (h : k ∉ keysOf l) :
    keysOf (alSet l k v) = keysOf l ++ [k] := by
  induction l with
  | nil => simp [alSet, keysOf_nil, keysOf_cons]
  | cons p rest ih =>
    obtain ⟨a, b⟩ := p
    rw [keysOf_cons] at h
    have hka : k ≠ a := fun hh => h (hh ▸ List.mem_cons_self a _)
    have hkr : k ∉ keysOf rest := fun hh => h (List.mem_cons_of_mem a hh)
    simp [alSet, keysOf_cons, hka, ih hkr]

theorem nodup_keysOf_alSet {α β : Type} [DecidableEq α] {l : List (α × β)}
    (k : α) (v : β) (h : (keysOf l).Nodup) :
    (keysOf (alSet l k v)).Nodup := by
  by_cases hm : k ∈ keysOf l
  · rwa [keysOf_alSet_of_mem v hm]
  · rw [keysOf_alSet_of_not_mem v hm]
    simp [List.nodup_append, h, hm]

theorem mem_alSet_elim {α β : Type} [DecidableEq α] {l : List (α × β)}
    {k : α} {v : β} {p : α × β} (hnd : (keysOf l).Nodup)
    (h : p ∈ alSet l k v) : (p ∈ l ∧ p.1 ≠ k) ∨ p = (k, v) := by
  induction l with
  | nil =>
    simp [alSet] at h
    simp [h]
  | cons q rest ih =>
    obtain ⟨a, b⟩ := q
    rw [keysOf_cons, List.nodup_cons] at hnd
    by_cases hk : k = a
    · subst hk
      simp [alSet] at h
      rcases h with h | h
      · simp [h]
      · have hne : p.1 ≠ k := by
          intro hp
          exact hnd.1 (hp ▸ keysOf_mem_of_mem h)
        exact Or.inl ⟨List.mem_cons_of_mem _ h, hne⟩
    · simp [alSet, hk] at h
      rcases h with h | h
      · subst h
        exact Or.inl ⟨List.mem_cons_self _ _, fun hh => hk hh.symm⟩
      · rcases ih hnd.2 h with ⟨h1, h2⟩ | h1
        · exact Or.inl ⟨List.mem_cons_of_mem _ h1, h2⟩
        · exact Or.inr h1

theorem mem_alSet_of_mem {α β : Type} [DecidableEq α] {l : List (α × β)}
    {k : α} {v : β} {p : α × β} (h : p ∈ l) (hne : p.1 ≠ k) :
    p ∈ alSet l k v := by
  induction l with
  | nil => simp at h
  | cons q rest ih =>
    obtain ⟨a, b⟩ := q
    rcases List.mem_cons.1 h with h1 | h1
    · subst h1
      have hka : k ≠ a := fun hk => hne (by simp [hk])
      simp [alSet, hka]
    · by_cases hk : k = a
      · simp [alSet, hk]
        exact Or.inr h1
      · simp [alSet, hk]
        exact Or.inr (ih h1)

theorem alErase_sublist {α β : Type} [DecidableEq α] (l : List (α × β))
    (k : α) : (alErase l k).Sublist l := by
  induction l with
  | nil => simp [alErase]
  | cons q rest ih =>
    obtain ⟨a, b⟩ := q
    by_cases hk : k = a
    · rw [show alErase ((a, b) :: rest) k = rest by simp [alErase, hk]]
      exact List.sublist_cons_self _ _
    · rw [show alErase ((a, b) :: rest) k = (a, b) :: alErase rest k by
        simp [alErase, hk]]
      exact ih.cons₂ _

theorem mem_of_mem_alErase {α β : Type} [DecidableEq α] {l : List (α × β)}
    {k : α} {p : α × β} (h : p ∈ alErase l k) : p ∈ l :=
  (alErase_sublist l k).mem h

theorem mem_alErase_of_mem {α β : Type} [DecidableEq α] {l : List (α × β)}
    {k : α} {p : α × β} (h : p ∈ l) (hne : p.1 ≠ k) : p ∈ alErase l k := by
  induction l with
  | nil => simp at h
  | cons q rest ih =>
    obtain ⟨a, b⟩ := q
    rcases List.mem_cons.1 h with h1 | h1
    · subst h1
      have hka : k ≠ a := fun hk => hne (by simp [hk])
      simp [alErase, hka]
    · by_cases hk : k = a
      · simp [alErase, hk]
        exact h1
      · simp [alErase, hk]
        exact Or.inr (ih h1)

theorem keysOf_alErase_sublist {α β : Type} [DecidableEq α]
    (l : List (α × β)) (k : α) :
    (keysOf (alErase l k)).Sublist (keysOf l) :=
  (alErase_sublist l k).map Prod.fst

theorem nodup_keysOf_alErase {α β : Type} [DecidableEq α]
    {l : List (α × β)} (k : α) (h : (keysOf l).Nodup) :
    (keysOf (alErase l k)).Nodup :=
  (keysOf_alErase_sublist l k).nodup h

theorem alErase_of_not_mem {α β : Type} [DecidableEq α] {l : List (α × β)}
    {k : α} (h : k ∉ keysOf l) : alErase l k = l := by
  induction l with
  | nil => simp [alErase]
  | cons q rest ih =>
    obtain ⟨a, b⟩ := q
    rw [keysOf_cons] at h
    have hka : k ≠ a := fun hh => h (hh ▸ List.mem_cons_self a _)
    have hkr : k ∉ keysOf rest := fun hh => h (List.mem_cons_of_mem a hh)
    simp [alErase, hka, ih hkr]

theorem not_mem_keysOf_alErase {α β : Type} [DecidableEq α]
    {l : List (α × β)} {k : α} (h : (keysOf l).Nodup) :
    k ∉ keysOf (alErase l k) := by
  induction l with
  | nil => simp [alErase, keysOf_nil]
  | cons q rest ih =>
    obtain ⟨a, b⟩ := q
    rw [keysOf_cons, List.nodup_cons] at h
    by_cases hk : k = a
    · subst hk
      rw [show alErase ((k, b) :: rest) k = rest by simp [alErase]]
      exact h.1
    · rw [show alErase ((a, b) :: rest) k = (a, b) :: alErase rest k by
        simp [alErase, hk], keysOf_cons]
      intro hmem
      rcases List.mem_cons.1 hmem with h1 | h1
      · exact hk h1
      · exact ih h.2 h1

/-! ### Counting assignment entries per table -/

theorem countAt_eq_zero_iff (a : List (String × Nat)) (t : Nat) :
    countAt a t = 0 ↔ ∀ p ∈ a, p.2 ≠ t := by
  induction a with
  | nil => simp [countAt]
  | cons p rest ih =>
    by_cases h : p.2 = t <;> simp [countAt, h, ih]

theorem countAt_ne_zero_of_mem {a : List (String × Nat)} {p : String × Nat}
    {t : Nat} (hm : p ∈ a) (ht : p.2 = t) : countAt a t ≠ 0 := by
  intro h0
  exact (countAt_eq_zero_iff a t).1 h0 p hm ht

theorem countAt_alSet (a : List (String × Nat)) (d : String) (t t' : Nat) :
    countAt (alSet a d t) t' =
      countAt (alErase a d) t' + (if t = t' then 1 else 0) := by
  induction a with
  | nil => simp [alSet, alErase, countAt]
  | cons q rest ih =>
    obtain ⟨k, v⟩ := q
    by_cases hk : d = k
    · simp [alSet, alErase, hk, countAt]
    · simp [alSet, alErase, hk, countAt, ih]
      omega

theorem countAt_alErase {a : List (String × Nat)} {d : String} {t0 : Nat}
    (h : alGet? a d = some t0) (t' : Nat) :
    countAt a t' = countAt (alErase a d) t' + (if t0 = t' then 1 else 0) := by
  induction a with
  | nil => simp [alGet?] at h
  | cons q rest ih =>
    obtain ⟨k, v⟩ := q
    by_cases hk : d = k
    · subst hk
      simp [alGet?] at h
      subst h
      simp [alErase, countAt]
    · simp [alGet?, hk] at h
      simp [alErase, hk, countAt, ih h]
      omega

theorem mem_keysOf_alErase_of_mem {α β : Type} [DecidableEq α]
    {l : List (α × β)} {x k : α} (h : x ∈ keysOf l) (hne : x ≠ k) :
    x ∈ keysOf (alErase l k) := by
  rcases List.mem_map.1 h with ⟨q, hq, rfl⟩
  exact keysOf_mem_of_mem (mem_alErase_of_mem hq hne)

theorem ne_of_mem_alErase {α β : Type} [DecidableEq α] {l : List (α × β)}
    {k : α} {p : α × β} (hnd : (keysOf l).Nodup) (h : p ∈ alErase l k) :
    p.1 ≠ k := by
  intro hp
  exact not_mem_keysOf_alErase hnd (hp ▸ keysOf_mem_of_mem h)

/-! ### Well-formedness preservation -/

theorem WFmid_of_unassigned {s : CRPState} {d : String} (hwf : WF s)
    (h : alGet? s.assignments d = none) : WFmid d s := by
  have he : alErase s.assignments d = s.assignments :=
    alErase_of_not_mem ((alGet?_eq_none_iff _ _).1 h)
  exact ⟨hwf.nodupA, hwf.nodupT, hwf.ltNext, by rw [he]; exact hwf.docsCount,
    hwf.nonemptyT, by rw [he]; exact hwf.assignedLive⟩

theorem alSet_alSet {α β : Type} [DecidableEq α] (l : List (α × β)) (k : α)
    (v w : β) : alSet (alSet l k v) k w = alSet l k w := by
  induction l with
  | nil => simp [alSet]
  | cons q rest ih =>
    obtain ⟨a, b⟩ := q
    by_cases hk : k = a <;> simp [alSet, hk, ih]

theorem remove_doc_fields (d : String) (ws : List String) (s : CRPState) :
    (remove_doc d ws s).assignments = s.assignments ∧
      (remove_doc d ws s).total_docs = s.total_docs ∧
      (remove_doc d ws s).nextID = s.nextID ∧
      (remove_doc d ws s).alpha = s.alpha ∧
      (remove_doc d ws s).beta = s.beta ∧
      (remove_doc d ws s).W = s.W := by
  unfold remove_doc
  split
  · exact ⟨rfl, rfl, rfl, rfl, rfl, rfl⟩
  · split
    · exact ⟨rfl, rfl, rfl, rfl, rfl, rfl⟩
    · exact ⟨rfl, rfl, rfl, rfl, rfl, rfl⟩

theorem add_doc_known {s : CRPState} {tid : Nat} {Tb : Table}
    (h : alGet? s.tables tid = some Tb) (d : String) (ws : List String) :
    add_doc d ws tid s =
      { s with assignments := alSet s.assignments d tid,
               tables := alSet s.tables tid
                 ⟨Tb.num_docs + 1, Tb.num_words + (ws.length : Int),
                   ws.foldl incWordCount Tb.word_counts⟩,
               total_docs := s.total_docs + 1 } := by
  simp [add_doc, h]

theorem add_doc_fresh {s : CRPState} {tid : Nat}
    (h : alGet? s.tables tid = none) (d : String) (ws : List String) :
    add_doc d ws tid s =
      { s with assignments := alSet s.assignments d tid,
               tables := alSet s.tables tid
                 ⟨1, (ws.length : Int), ws.foldl incWordCount []⟩,
               nextID := s.nextID + 1,
               total_docs := s.total_docs + 1 } := by
  simp [add_doc, h, alGet?_alSet_self, alSet_alSet]

theorem WFmid_remove {s : CRPState} {d : String} {t0 : Nat}
    {ws : List String} (hwf : WF s) (h : alGet? s.assignments d = some t0) :
    WFmid d (remove_doc d ws s) := by
  have hmem : (d, t0) ∈ s.assignments := mem_of_alGet?_eq_some h
  have ht0k : t0 ∈ keysOf s.tables := hwf.assignedLive _ hmem
  obtain ⟨Tb, hTb⟩ := alGet?_eq_some_of_mem_keys ht0k
  have hTmem : (t0, Tb) ∈ s.tables := mem_of_alGet?_eq_some hTb
  have hcount : Tb.num_docs =
      (countAt (alErase s.assignments d) t0 : Int) + 1 := by
    have hd := hwf.docsCount _ hTmem
    rw [countAt_alErase h t0, if_pos rfl] at hd
    push_cast at hd ⊢
    omega
  have hred : remove_doc d ws s =
      { s with tables := if Tb.num_docs - 1 = 0 then alErase s.tables t0 else alSet s.tables t0 (Table.mk (Tb.num_docs - 1) (Tb.num_words - (ws.length : Int)) (ws.foldl decWordCount Tb.word_counts)) } := by
    simp [remove_doc, h, hTb]
  rw [hred]
  by_cases hz : Tb.num_docs - 1 = 0
  · have hc0 : countAt (alErase s.assignments d) t0 = 0 := by omega
    rw [if_pos hz]
    refine ⟨hwf.nodupA, nodup_keysOf_alErase _ hwf.nodupT, ?_, ?_, ?_, ?_⟩
    · intro p hp
      exact hwf.ltNext _ (mem_of_mem_alErase hp)
    · intro p hp
      have hne := ne_of_mem_alErase hwf.nodupT hp
      have hpt := mem_of_mem_alErase hp
      rw [hwf.docsCount _ hpt, countAt_alErase h p.1,
        if_neg (fun hh => hne hh.symm)]
      simp
    · intro p hp
      exact hwf.nonemptyT _ (mem_of_mem_alErase hp)
    · intro p hp
      have hpA := mem_of_mem_alErase hp
      have hlive := hwf.assignedLive _ hpA
      have hne : p.2 ≠ t0 := by
        intro hpt
        exact countAt_ne_zero_of_mem hp hpt hc0
      exact mem_keysOf_alErase_of_mem hlive hne
  · rw [if_neg hz]
    refine ⟨hwf.nodupA, nodup_keysOf_alSet _ _ hwf.nodupT, ?_, ?_, ?_, ?_⟩
    · intro p hp
      rcases mem_alSet_elim hwf.nodupT hp with ⟨hpT, _⟩ | hpe
      · exact hwf.ltNext _ hpT
      · rw [hpe]
        exact hwf.ltNext (t0, Tb) hTmem
    · intro p hp
      rcases mem_alSet_elim hwf.nodupT hp with ⟨hpT, hne⟩ | hpe
      · rw [hwf.docsCount _ hpT, countAt_alErase h p.1,
          if_neg (fun hh => hne hh.symm)]
        simp
      · rw [hpe]
        simp only
        omega
    · intro p hp
      rcases mem_alSet_elim hwf.nodupT hp with ⟨hpT, _⟩ | hpe
      · exact hwf.nonemptyT _ hpT
      · rw [hpe]
        simpa using hz
    · intro p hp
      have hpA := mem_of_mem_alErase hp
      rw [keysOf_alSet_of_mem _ ht0k]
      exact hwf.assignedLive _ hpA

theorem not_mem_keysOf_of_lt {s : CRPState} (hwf : ∀ p ∈ s.tables, p.1 < s.nextID) :
    s.nextID ∉ keysOf s.tables := by
  intro hmem
  rcases List.mem_map.1 hmem with ⟨q, hq, hfst⟩
  exact absurd (hfst ▸ hwf q hq) (lt_irrefl _)

theorem WF_add {s : CRPState} {d : String} {tid : Nat} {ws : List String}
    (hmid : WFmid d s) (htid : tid ∈ keysOf s.tables ∨ tid = s.nextID) :
    WF (add_doc d ws tid s) := by
  rcases htid with hk | hfresh
  · obtain ⟨Tb, hTb⟩ := alGet?_eq_some_of_mem_keys hk
    have hTmem : (tid, Tb) ∈ s.tables := mem_of_alGet?_eq_some hTb
    have hTbd : Tb.num_docs = (countAt (alErase s.assignments d) tid : Int) :=
      hmid.docsCount _ hTmem
    rw [add_doc_known hTb]
    refine ⟨nodup_keysOf_alSet _ _ hmid.nodupA,
      nodup_keysOf_alSet _ _ hmid.nodupT, ?_, ?_, ?_, ?_⟩
    · intro p hp
      rcases mem_alSet_elim hmid.nodupT hp with ⟨hpT, _⟩ | hpe
      · exact hmid.ltNext _ hpT
      · rw [hpe]
        exact hmid.ltNext (tid, Tb) hTmem
    · intro p hp
      rcases mem_alSet_elim hmid.nodupT hp with ⟨hpT, hne⟩ | hpe
      · rw [hmid.docsCount _ hpT, countAt_alSet s.assignments d tid p.1,
          if_neg (fun hh => hne hh.symm)]
        simp
    -- the freshly updated table entry
      · rw [hpe]
        simp only [countAt_alSet s.assignments d tid tid, if_pos rfl]
        push_cast
        omega
    · intro p hp
      rcases mem_alSet_elim hmid.nodupT hp with ⟨hpT, _⟩ | hpe
      · exact hmid.nonemptyT _ hpT
      · rw [hpe]
        simp only
        omega
    · intro p hp
      rw [keysOf_alSet_of_mem _ hk]
      rcases mem_alSet_elim hmid.nodupA hp with ⟨hpA, hne⟩ | hpe
      · exact hmid.assignedLive _ (mem_alErase_of_mem hpA hne)
      · rw [hpe]
        exact hk
  · subst hfresh
    have hnm : s.nextID ∉ keysOf s.tables := not_mem_keysOf_of_lt hmid.ltNext
    have hnone : alGet? s.tables s.nextID = none :=
      (alGet?_eq_none_iff _ _).2 hnm
    have hc0 : countAt (alErase s.assignments d) s.nextID = 0 := by
      rw [countAt_eq_zero_iff]
      intro p hp hpt
      exact hnm (hpt ▸ hmid.assignedLive _ hp)
    rw [add_doc_fresh hnone]
    refine ⟨nodup_keysOf_alSet _ _ hmid.nodupA,
      nodup_keysOf_alSet _ _ hmid.nodupT, ?_, ?_, ?_, ?_⟩
    · intro p hp
      rcases mem_alSet_elim hmid.nodupT hp with ⟨hpT, _⟩ | hpe
      · exact Nat.lt_succ_of_lt (hmid.ltNext _ hpT)
      · rw [hpe]
        exact Nat.lt_succ_self _
    · intro p hp
      rcases mem_alSet_elim hmid.nodupT hp with ⟨hpT, hne⟩ | hpe
      · rw [hmid.docsCount _ hpT, countAt_alSet s.assignments d s.nextID p.1,
          if_neg (fun hh => hne hh.symm)]
        simp
      · rw [hpe]
        simp only [countAt_alSet s.assignments d s.nextID s.nextID,
          if_pos rfl, hc0]
        simp
    · intro p hp
      rcases mem_alSet_elim hmid.nodupT hp with ⟨hpT, _⟩ | hpe
      · exact hmid.nonemptyT _ hpT
      · rw [hpe]
        simp
    · intro p hp
      rw [keysOf_alSet_of_not_mem _ hnm]
      rcases mem_alSet_elim hmid.nodupA hp with ⟨hpA, hne⟩ | hpe
      · exact List.mem_append_left _
          (hmid.assignedLive _ (mem_alErase_of_mem hpA hne))
      · rw [hpe]
        exact List.mem_append_right _ (List.mem_singleton_self _)

theorem sampleGo_mem {l : List (Nat × Rat)} {t : Rat} {k : Nat}
    (h : sampleGo l t = some k) : k ∈ keysOf l := by
  induction l generalizing t with
  | nil => simp [sampleGo] at h
  | cons q rest ih =>
    obtain ⟨key, p⟩ := q
    rw [keysOf_cons]
    by_cases hc : t - p < 0
    · simp [sampleGo, hc] at h
      simp [h]
    · simp [sampleGo, hc] at h
      exact List.mem_cons_of_mem _ (ih h)

theorem sample_mem {l : List (Nat × Rat)} (hne : l ≠ []) (u : Rat) :
    sample l u ∈ keysOf l := by
  unfold sample
  rcases hgo : sampleGo l (u * (l.map Prod.snd).sum) with _ | k
  · simp only [hgo]
    rw [List.getLast?_eq_getLast _ hne]
    simpa using keysOf_mem_of_mem (List.getLast_mem hne)
  · simp only [hgo]
    exact sampleGo_mem hgo

theorem WF_reseat {s : CRPState} (hwf : WF s) (u : Rat) (d : String)
    (ws : List String) : WF (reseat_core u d ws s) := by
  unfold reseat_core
  rcases ha : alGet? s.assignments d with _ | t0
  all_goals simp only [ha, Option.isSome_none, Option.isSome_some,
    Bool.false_eq_true, if_false, if_true]
  · -- document not yet assigned: no removal
    have hmid : WFmid d s := WFmid_of_unassigned hwf ha
    apply WF_add hmid
    have hkeys : keysOf
        ((s.tables.map (fun p => (p.1, tableWeight ws s p.2))) ++
          [(s.nextID,
            prob_of_table 0 s.total_docs s.alpha *
              prob_of_words_given_table ws [] 0 s.beta s.W)]) =
        keysOf s.tables ++ [s.nextID] := by
      simp [keysOf]
    have hsm := sample_mem (l :=
        (s.tables.map (fun p => (p.1, tableWeight ws s p.2))) ++
          [(s.nextID,
            prob_of_table 0 s.total_docs s.alpha *
              prob_of_words_given_table ws [] 0 s.beta s.W)])
      (by simp) u
    rw [hkeys] at hsm
    rcases List.mem_append.1 hsm with hmem | hmem
    · exact Or.inl hmem
    · exact Or.inr (List.mem_singleton.1 hmem)
  · -- document assigned: remove first
    have hmid : WFmid d (remove_doc d ws s) := WFmid_remove hwf ha
    apply WF_add hmid
    have hkeys : keysOf
        (((remove_doc d ws s).tables.map
            (fun p => (p.1, tableWeight ws (remove_doc d ws s) p.2))) ++
          [((remove_doc d ws s).nextID,
            prob_of_table 0 (remove_doc d ws s).total_docs
                (remove_doc d ws s).alpha *
              prob_of_words_given_table ws [] 0 (remove_doc d ws s).beta
                (remove_doc d ws s).W)]) =
        keysOf (remove_doc d ws s).tables ++ [(remove_doc d ws s).nextID] := by
      simp [keysOf]
    have hsm := sample_mem (l :=
        ((remove_doc d ws s).tables.map
            (fun p => (p.1, tableWeight ws (remove_doc d ws s) p.2))) ++
          [((remove_doc d ws s).nextID,
            prob_of_table 0 (remove_doc d ws s).total_docs
                (remove_doc d ws s).alpha *
              prob_of_words_given_table ws [] 0 (remove_doc d ws s).beta
                (remove_doc d ws s).W)])
      (by simp) u
    rw [hkeys] at hsm
    rcases List.mem_append.1 hsm with hmem | hmem
    · exact Or.inl hmem
    · exact Or.inr (List.mem_singleton.1 hmem)

theorem addVocabWord_fields (s : CRPState) (w : String) :
    (addVocabWord s w).assignments = s.assignments ∧
      (addVocabWord s w).tables = s.tables ∧
      (addVocabWord s w).nextID = s.nextID := by
  cases h : alGet? s.vocab w <;> simp [addVocabWord, h]

theorem vocabFold_fields (ws : List String) (s : CRPState) :
    (ws.foldl addVocabWord s).assignments = s.assignments ∧
      (ws.foldl addVocabWord s).tables = s.tables ∧
      (ws.foldl addVocabWord s).nextID = s.nextID := by
  induction ws generalizing s with
  | nil => exact ⟨rfl, rfl, rfl⟩
  | cons w rest ih =>
    rw [List.foldl_cons]
    obtain ⟨h1, h2, h3⟩ := addVocabWord_fields s w
    obtain ⟨g1, g2, g3⟩ := ih (addVocabWord s w)
    exact ⟨g1.trans h1, g2.trans h2, g3.trans h3⟩

theorem WF_of_fields {s t : CRPState} (ha : t.assignments = s.assignments)
    (ht : t.tables = s.tables) (hn : t.nextID = s.nextID) (h : WF s) :
    WF t := by
  refine ⟨?_, ?_, ?_, ?_, ?_, ?_⟩
  · rw [ha]
    exact h.nodupA
  · rw [ht]
    exact h.nodupT
  · rw [ht, hn]
    exact h.ltNext
  · rw [ht, ha]
    exact h.docsCount
  · rw [ht]
    exact h.nonemptyT
  · rw [ha, ht]
    exact h.assignedLive

theorem WF_initFold :
    ∀ (docs : List (String × List String)) (s : CRPState), WF s →
      (∀ p ∈ docs, p.1 ∉ keysOf s.assignments) → (keysOf docs).Nodup →
      WF (docs.foldl
        (fun s doc => add_doc doc.1 doc.2 s.nextID
          (doc.2.foldl addVocabWord s)) s)
  | [], _, hwf, _, _ => hwf
  | (d, ws) :: rest, s, hwf, hfresh, hnd => by
    rw [List.foldl_cons]
    obtain ⟨f1, f2, f3⟩ := vocabFold_fields ws s
    have hwfv : WF (ws.foldl addVocabWord s) := WF_of_fields f1 f2 f3 hwf
    have hdnone : alGet? (ws.foldl addVocabWord s).assignments d = none := by
      rw [f1, alGet?_eq_none_iff]
      exact hfresh (d, ws) (List.mem_cons_self _ _)
    have hmid : WFmid d (ws.foldl addVocabWord s) :=
      WFmid_of_unassigned hwfv hdnone
    have hnone : alGet? (ws.foldl addVocabWord s).tables s.nextID = none := by
      rw [f2, alGet?_eq_none_iff, ← f2, ← f3]
      exact not_mem_keysOf_of_lt hwfv.ltNext
    have hadd : WF (add_doc d ws s.nextID (ws.foldl addVocabWord s)) := by
      rw [show s.nextID = (ws.foldl addVocabWord s).nextID from f3.symm]
      exact WF_add hmid (Or.inr rfl)
    rw [keysOf_cons, List.nodup_cons] at hnd
    apply WF_initFold rest _ hadd ?_ hnd.2
    intro p hp
    rw [add_doc_fresh hnone]
    simp only
    have hpk : p.1 ∉ keysOf (ws.foldl addVocabWord s).assignments := by
      rw [f1]
      exact hfresh p (List.mem_cons_of_mem _ hp)
    by_cases hm : d ∈ keysOf (ws.foldl addVocabWord s).assignments
    · rw [keysOf_alSet_of_mem _ hm]
      exact hpk
    · rw [keysOf_alSet_of_not_mem _ hm]
      intro hcon
      rcases List.mem_append.1 hcon with hcon | hcon
      · exact hpk hcon
      · exact hnd.1 (List.mem_singleton.1 hcon ▸ keysOf_mem_of_mem hp)

theorem WF_initialize {corpus : List (String × List String)}
    (hnd : (keysOf corpus).Nodup) (alpha beta : Rat) :
    WF (initialize_state corpus alpha beta) := by
  unfold initialize_state
  apply WF_initFold corpus _ ?_ ?_ hnd
  · exact ⟨List.nodup_nil, List.nodup_nil, by simp, by simp, by simp,
      by simp⟩
  · intro p _
    simp [keysOf_nil]

theorem reach_WF {corpus : List (String × List String)} {s : CRPState}
    (hnd : (keysOf corpus).Nodup) (h : Reach corpus s) : WF s := by
  induction h with
  | init alpha beta => exact WF_initialize hnd alpha beta
  | step u d s0 s1 hr hok ih =>
    unfold sample_table at hok
    rcases hc : alGet? corpus d with _ | ws <;> simp only [hc] at hok
    · exact absurd hok (by simp)
    · rw [← (Except.ok.inj hok)]
      exact WF_reseat ih u d ws

/-! ### Claim theorems: state-machine claims -/

/-- C7: for every state reachable by `initialize` followed by any sequence
of completed `sample_table` calls, no table with `num_docs == 0` exists in
`tables`: `remove_doc` garbage-collects a table the moment its last document
is removed, and a freshly materialized table immediately receives the
document being added. -/
theorem c7_no_empty_clusters {corpus : List (String × List String)}
    {s : CRPState} (hnd : (keysOf corpus).Nodup) (h : Reach corpus s) :
    noEmptyTables s = true := by
  rw [noEmptyTables, List.all_eq_true]
  intro p hp
  exact decide_eq_true ((reach_WF hnd h).nonemptyT p hp)

/-- Witness for C7: the invariant evaluated after `initialize` on the worked
example plus one completed reseat of `"d1"`. -/
theorem c7_no_empty_clusters_witness :
    noEmptyTables (reseat_core (1 / 2) "d1" ["a", "b"] exampleInit) =
      true := by
  refine @c7_no_empty_clusters exampleCorpus _ (by decide) ?_
  refine Reach.step (1 / 2) "d1" exampleInit _ (Reach.init 1 (1 / 2)) ?_
  simp only [sample_table,
    show alGet? exampleCorpus "d1" = some ["a", "b"] from by decide]

/-- C9: calling `sample_table` with a document ID absent from the corpus
fails with an error (the `TypeError` on `words.length`) and leaves the
entire state unchanged — the error carries the state at the throw point,
which is the original state, since the throw precedes every mutation. -/
theorem c9_missing_doc_fails_fast (u : Rat) (docID : String)
    (corpus : List (String × List String)) (s : CRPState)
    (h : alGet? corpus docID = none) :
    sample_table u docID corpus s = Except.error s := by
  simp only [sample_table, h]

/-- Witness for C9 at a concrete missing document ID. -/
theorem c9_missing_doc_fails_fast_witness :
    alGet? exampleCorpus "d9" = none ∧
      sample_table (1 / 2) "d9" exampleCorpus exampleInit =
        Except.error exampleInit :=
  ⟨by decide, c9_missing_doc_fails_fast (1 / 2) "d9" exampleCorpus
    exampleInit (by decide)⟩

/-- C10: `add_doc` on a table already present changes only that table's
statistics, the assignment entry of the document, and `total_docs`;
`nextID`, every other table, every other assignment entry and the
hyperparameters are untouched. -/
theorem c10_add_doc_frame (d : String) (ws : List String) (tid : Nat)
    (s : CRPState) (Tb : Table) (h : alGet? s.tables tid = some Tb) :
    (add_doc d ws tid s).nextID = s.nextID ∧
      (∀ t', t' ≠ tid →
        alGet? (add_doc d ws tid s).tables t' = alGet? s.tables t') ∧
      (∀ d', d' ≠ d →
        alGet? (add_doc d ws tid s).assignments d' =
          alGet? s.assignments d') ∧
      (add_doc d ws tid s).total_docs = s.total_docs + 1 ∧
      alGet? (add_doc d ws tid s).tables tid =
        some ⟨Tb.num_docs + 1, Tb.num_words + (ws.length : Int),
          ws.foldl incWordCount Tb.word_counts⟩ ∧
      alGet? (add_doc d ws tid s).assignments d = some tid ∧
      (add_doc d ws tid s).alpha = s.alpha ∧
      (add_doc d ws tid s).beta = s.beta ∧
      (add_doc d ws tid s).W = s.W := by
  rw [add_doc_known h]
  exact ⟨rfl, fun t' hne => alGet?_alSet_ne _ _ _ _ hne,
    fun d' hne => alGet?_alSet_ne _ _ _ _ hne, rfl,
    alGet?_alSet_self _ _ _, alGet?_alSet_self _ _ _, rfl, rfl, rfl⟩

/-- Witness for C10: seating a new document at the existing table `0` of the
worked example leaves `nextID` and table `1` unchanged and bumps
`total_docs`. -/
theorem c10_add_doc_frame_witness :
    (add_doc "d9" ["b"] 0 exampleInit).nextID = exampleInit.nextID ∧
      alGet? (add_doc "d9" ["b"] 0 exampleInit).tables 1 =
        alGet? exampleInit.tables 1 ∧
      (add_doc "d9" ["b"] 0 exampleInit).total_docs =
        exampleInit.total_docs + 1 :=
  ⟨(c10_add_doc_frame "d9" ["b"] 0 exampleInit ⟨1, 2, [("a", 1), ("b", 1)]⟩
      (by decide)).1,
    (c10_add_doc_frame "d9" ["b"] 0 exampleInit ⟨1, 2, [("a", 1), ("b", 1)]⟩
      (by decide)).2.1 1 (by decide),
    (c10_add_doc_frame "d9" ["b"] 0 exampleInit ⟨1, 2, [("a", 1), ("b", 1)]⟩
      (by decide)).2.2.2.1⟩

/-- C1 (code bug): conservation of `total_docs` fails.  On the spec's
worked example, `initialize` gives `total_docs = 2`; one completed reseat of
`"d1"` (draw `u = 1/2`) leaves 2 entries in `assignments` and the tables'
`num_docs` summing to 2, yet `total_docs = 3`, because `remove_doc` never
decrements `total_docs` while `add_doc` increments it. -/
theorem c1_total_docs_conservation_bug :
    exampleInit.total_docs = 2 ∧
      sample_table (1 / 2) "d1" exampleCorpus exampleInit =
        Except.ok (reseat_core (1 / 2) "d1" ["a", "b"] exampleInit) ∧
      (reseat_core (1 / 2) "d1" ["a", "b"] exampleInit).total_docs = 3 ∧
      (reseat_core (1 / 2) "d1" ["a", "b"]
        exampleInit).assignments.length = 2 ∧
      ((reseat_core (1 / 2) "d1" ["a", "b"] exampleInit).tables.map
        (fun p => p.2.num_docs)).sum = 2 := by
  have hstate : reseat_core (1 / 2) "d1" ["a", "b"] exampleInit =
      ⟨[("d1", 2), ("d2", 1)],
        [(1, ⟨1, 2, [("a", 2)]⟩), (2, ⟨1, 2, [("a", 1), ("b", 1)]⟩)],
        3, 3, 1, 1 / 2, 2, [("a", 3), ("b", 1)]⟩ := by
    norm_num +decide [exampleInit, exampleCorpus, initialize_state, add_doc,
      addVocabWord, reseat_core, remove_doc, decWordCount, incWordCount,
      sample, sampleGo, tableWeight, prob_of_table,
      prob_of_words_given_table, pwGo, alGet?, alSet, alErase]
  refine ⟨by decide, ?_, ?_, ?_, ?_⟩
  · simp only [sample_table,
      show alGet? exampleCorpus "d1" = some ["a", "b"] from by decide]
  · rw [hstate]
  · rw [hstate]
    decide
  · rw [hstate]
    decide

/-- C2 (code bug): on a state where `"d1"` is seated at a two-document
table, the remove step decrements the table's per-word counts for each word
of the document (deleting the zeroed `"b"` entry), decrements `num_words` by
the document length and `num_docs` by one — but leaves the global
`total_docs` untouched at 2, where the claim requires it to drop to 1. -/
theorem c2_remove_doc_total_docs_bug :
    twoDocState.total_docs = 2 ∧
      alGet? twoDocState.assignments "d1" = some 5 ∧
      (remove_doc "d1" ["a", "b"] twoDocState).tables =
        [(5, ⟨1, 2, [("a", 2)]⟩)] ∧
      (remove_doc "d1" ["a", "b"] twoDocState).total_docs = 2 := by
  refine ⟨by decide, by decide, by decide, by decide⟩

/-- `add_doc` stores the hyperparameters unchanged. -/
theorem add_doc_params (d : String) (ws : List String) (tid : Nat)
    (s : CRPState) :
    (add_doc d ws tid s).alpha = s.alpha ∧
      (add_doc d ws tid s).beta = s.beta := by
  rcases h : alGet? s.tables tid with _ | Tb
  · rw [add_doc_fresh h]
    exact ⟨rfl, rfl⟩
  · rw [add_doc_known h]
    exact ⟨rfl, rfl⟩

/-- `addVocabWord` stores the hyperparameters unchanged. -/
theorem addVocabWord_params (s : CRPState) (w : String) :
    (addVocabWord s w).alpha = s.alpha ∧ (addVocabWord s w).beta = s.beta := by
  cases h : alGet? s.vocab w <;> simp [addVocabWord, h]

/-- The vocabulary fold stores the hyperparameters unchanged. -/
theorem vocabFold_params (ws : List String) (s : CRPState) :
    (ws.foldl addVocabWord s).alpha = s.alpha ∧
      (ws.foldl addVocabWord s).beta = s.beta := by
  induction ws generalizing s with
  | nil => exact ⟨rfl, rfl⟩
  | cons w rest ih =>
    rw [List.foldl_cons]
    obtain ⟨h1, h2⟩ := addVocabWord_params s w
    obtain ⟨g1, g2⟩ := ih (addVocabWord s w)
    exact ⟨g1.trans h1, g2.trans h2⟩

/-- The initialization fold stores the hyperparameters unchanged. -/
theorem initFold_params :
    ∀ (docs : List (String × List String)) (s : CRPState),
      (docs.foldl (fun s doc => add_doc doc.1 doc.2 s.nextID
        (doc.2.foldl addVocabWord s)) s).alpha = s.alpha ∧
      (docs.foldl (fun s doc => add_doc doc.1 doc.2 s.nextID
        (doc.2.foldl addVocabWord s)) s).beta = s.beta
  | [], _ => ⟨rfl, rfl⟩
  | (d, ws) :: rest, s => by
    rw [List.foldl_cons]
    obtain ⟨h1, h2⟩ := add_doc_params d ws s.nextID (ws.foldl addVocabWord s)
    obtain ⟨v1, v2⟩ := vocabFold_params ws s
    obtain ⟨g1, g2⟩ := initFold_params rest _
    exact ⟨g1.trans (h1.trans v1), g2.trans (h2.trans v2)⟩

/-- C8 (corrected): `initialize_state` performs no validation of the
hyperparameters; for every corpus and every `alpha`, `beta` — in range or
not — it returns a normally constructed state storing them unchanged. -/
theorem c8_initialize_no_validation
    (corpus : List (String × List String)) (alpha beta : Rat) :
    (initialize_state corpus alpha beta).alpha = alpha ∧
      (initialize_state corpus alpha beta).beta = beta := by
  unfold initialize_state
  exact ⟨(initFold_params corpus _).1, (initFold_params corpus _).2⟩

/-- C8 counterexample: at `alpha = -1 ≤ 0`, `beta = -1 ≤ 0` the source does
not reject: it builds the full two-document state of the worked example and
silently stores the out-of-range hyperparameters. -/
theorem c8_initialize_accepts_invalid :
    (initialize_state exampleCorpus (-1) (-1)).alpha = -1 ∧
      (initialize_state exampleCorpus (-1) (-1)).beta = -1 ∧
      (initialize_state exampleCorpus (-1) (-1)).total_docs = 2 ∧
      (initialize_state exampleCorpus (-1) (-1)).assignments.length = 2 := by
  have h : initialize_state exampleCorpus (-1) (-1) =
      ⟨[("d1", 0), ("d2", 1)],
        [(0, ⟨1, 2, [("a", 1), ("b", 1)]⟩), (1, ⟨1, 2, [("a", 2)]⟩)],
        2, 2, -1, -1, 2, [("a", 3), ("b", 1)]⟩ := by
    norm_num +decide [exampleCorpus, initialize_state, add_doc,
      addVocabWord, alGet?, alSet]
  rw [h]
  exact ⟨rfl, rfl, rfl, rfl⟩

/-! ### Claim theorems: likelihood formulas -/

theorem pwGo_eq (wc : List (String × Int)) (wt : Int) (beta : Rat) (W : Nat) :
    ∀ (rest pre : List String) (lc : List (String × Nat)) (acc : Rat),
      (∀ w, (alGet? lc w).getD 0 = pre.count w) →
      pwGo wc wt beta W rest pre.length lc acc =
        acc * ∏ j ∈ Finset.range rest.length,
          specWordFactor (pre ++ rest) wc wt beta W (pre.length + j)
  | [], pre, lc, acc, _ => by simp [pwGo]
  | w :: rest, pre, lc, acc, hlc => by
    have hlc' : ∀ w',
        (alGet? (alSet lc w ((alGet? lc w).getD 0 + 1)) w').getD 0 =
          (pre ++ [w]).count w' := by
      intro w'
      by_cases hw : w' = w
      · subst hw
        rw [alGet?_alSet_self]
        simp [hlc w', List.count_append]
      · rw [alGet?_alSet_ne _ _ _ _ hw]
        simp [hlc w', List.count_append, hw]
    have hIH := pwGo_eq wc wt beta W rest (pre ++ [w])
      (alSet lc w ((alGet? lc w).getD 0 + 1))
      (acc * ((((alGet? lc w).getD 0 : Nat) : Rat) +
          (((alGet? wc w).getD 0 : Int) : Rat) + beta) /
        ((pre.length : Rat) + (wt : Rat) + (W : Rat) * beta)) hlc'
    have hgd : (pre ++ w :: rest).getD pre.length "" = w := by
      rw [List.getD_eq_getElem?_getD, List.getElem?_append_right le_rfl]
      simp
    have htk : (pre ++ w :: rest).take pre.length = pre := by
      simp
    have hl : (pre ++ [w]) ++ rest = pre ++ w :: rest := by simp
    have hlen : (pre ++ [w]).length = pre.length + 1 := by simp
    rw [show pwGo wc wt beta W (w :: rest) pre.length lc acc =
        pwGo wc wt beta W rest (pre.length + 1)
          (alSet lc w ((alGet? lc w).getD 0 + 1))
          (acc * ((((alGet? lc w).getD 0 : Nat) : Rat) +
              (((alGet? wc w).getD 0 : Int) : Rat) + beta) /
            ((pre.length : Rat) + (wt : Rat) + (W : Rat) * beta)) from by
      simp [pwGo, mul_div_assoc]]
    rw [← hlen, hIH, hl, hlen]
    rw [show (w :: rest).length = rest.length + 1 from rfl,
      Finset.prod_range_succ']
    have hf0 : specWordFactor (pre ++ w :: rest) wc wt beta W
        (pre.length + 0) =
        ((((alGet? wc w).getD 0 : Int) : Rat) + ((pre.count w : Nat) : Rat) +
            beta) /
          ((pre.length : Rat) + (wt : Rat) + (W : Rat) * beta) := by
      rw [add_zero, specWordFactor, hgd, htk]
    have hprodeq : ∏ j ∈ Finset.range rest.length,
        specWordFactor (pre ++ w :: rest) wc wt beta W (pre.length + 1 + j) =
        ∏ j ∈ Finset.range rest.length,
          specWordFactor (pre ++ w :: rest) wc wt beta W
            (pre.length + (j + 1)) := by
      refine Finset.prod_congr rfl (fun j _ => ?_)
      congr 1
      omega
    rw [hprodeq, hf0, hlc w]
    ring

theorem lpwGo_eq (wc : List (String × Int)) (wt : Int) (beta : Real)
    (W : Nat) :
    ∀ (rest pre : List String) (lc : List (String × Nat)) (acc : Real),
      (∀ w, (alGet? lc w).getD 0 = pre.count w) →
      lpwGo wc wt beta W rest pre.length lc acc =
        acc + ∑ j ∈ Finset.range rest.length,
          Real.log (specWordFactorR (pre ++ rest) wc wt beta W
            (pre.length + j))
  | [], pre, lc, acc, _ => by simp [lpwGo]
  | w :: rest, pre, lc, acc, hlc => by
    have hlc' : ∀ w',
        (alGet? (alSet lc w ((alGet? lc w).getD 0 + 1)) w').getD 0 =
          (pre ++ [w]).count w' := by
      intro w'
      by_cases hw : w' = w
      · subst hw
        rw [alGet?_alSet_self]
        simp [hlc w', List.count_append]
      · rw [alGet?_alSet_ne _ _ _ _ hw]
        simp [hlc w', List.count_append, hw]
    have hIH := lpwGo_eq wc wt beta W rest (pre ++ [w])
      (alSet lc w ((alGet? lc w).getD 0 + 1))
      (acc + Real.log (((((alGet? lc w).getD 0 : Nat) : Real) +
          (((alGet? wc w).getD 0 : Int) : Real) + beta) /
        ((pre.length : Real) + (wt : Real) + (W : Real) * beta))) hlc'
    have hgd : (pre ++ w :: rest).getD pre.length "" = w := by
      rw [List.getD_eq_getElem?_getD, List.getElem?_append_right le_rfl]
      simp
    have htk : (pre ++ w :: rest).take pre.length = pre := by
      simp
    have hl : (pre ++ [w]) ++ rest = pre ++ w :: rest := by simp
    have hlen : (pre ++ [w]).length = pre.length + 1 := by simp
    rw [show lpwGo wc wt beta W (w :: rest) pre.length lc acc =
        lpwGo wc wt beta W rest (pre.length + 1)
          (alSet lc w ((alGet? lc w).getD 0 + 1))
          (acc + Real.log (((((alGet? lc w).getD 0 : Nat) : Real) +
              (((alGet? wc w).getD 0 : Int) : Real) + beta) /
            ((pre.length : Real) + (wt : Real) + (W : Real) * beta))) from by
      simp [lpwGo]]
    rw [← hlen, hIH, hl, hlen]
    have hf0 : Real.log (specWordFactorR (pre ++ w :: rest) wc wt beta W
        (pre.length + 0)) =
        Real.log ((((pre.count w : Nat) : Real) +
            (((alGet? wc w).getD 0 : Int) : Real) + beta) /
          ((pre.length : Real) + (wt : Real) + (W : Real) * beta)) := by
      rw [add_zero, specWordFactorR, hgd, htk]
      congr 1
      ring
    have hsumeq : ∑ j ∈ Finset.range rest.length,
        Real.log (specWordFactorR (pre ++ w :: rest) wc wt beta W
          (pre.length + 1 + j)) =
        ∑ j ∈ Finset.range rest.length,
          Real.log (specWordFactorR (pre ++ w :: rest) wc wt beta W
            (pre.length + (j + 1))) := by
      refine Finset.sum_congr rfl (fun j _ => ?_)
      congr 2
      omega
    have hsplit : ∑ j ∈ Finset.range (rest.length + 1),
        Real.log (specWordFactorR (pre ++ w :: rest) wc wt beta W
          (pre.length + j)) =
        (∑ j ∈ Finset.range rest.length,
          Real.log (specWordFactorR (pre ++ w :: rest) wc wt beta W
            (pre.length + (j + 1)))) +
        Real.log (specWordFactorR (pre ++ w :: rest) wc wt beta W
          (pre.length + 0)) :=
      Finset.sum_range_succ' _ _
    rw [show (w :: rest).length = rest.length + 1 from rfl, hsplit, hf0,
      hsumeq, hlc w]
    ring

/-- C3: the word likelihood is the product — and its log form the sum of
logarithms — over positions `j` of
`(existing_count(word_j) + running_count_within_this_document(word_j) + beta)
/ (j + cluster_word_total + W * beta)`, with `existing_count` the cluster's
count before the document is added and the running count the number of prior
occurrences of the word earlier in the same document. -/
theorem c3_word_likelihood :
    (∀ (words : List String) (wc : List (String × Int)) (wt : Int)
        (beta : Rat) (W : Nat),
      prob_of_words_given_table words wc wt beta W =
        ∏ j ∈ Finset.range words.length,
          specWordFactor words wc wt beta W j) ∧
    (∀ (words : List String) (wc : List (String × Int)) (wt : Int)
        (beta : Real) (W : Nat),
      log_prob_words_given_table words wc wt beta W =
        ∑ j ∈ Finset.range words.length,
          Real.log (specWordFactorR words wc wt beta W j)) := by
  constructor
  · intro words wc wt beta W
    have h := pwGo_eq wc wt beta W words [] [] 1
      (by intro w; simp [alGet?])
    simpa using h
  · intro words wc wt beta W
    have h := lpwGo_eq wc wt beta W words [] [] 0
      (by intro w; simp [alGet?])
    simpa using h

/-- C6: the table prior returns `count / (total + alpha)` for an occupied
table (`count > 0`) and `alpha / (total + alpha)` for `count == 0`; the log
form is the natural logarithm of the same ratio, with `count == 0` routed to
the `alpha` branch. -/
theorem c6_table_prior :
    (∀ (count total : Int) (alpha : Rat), 0 < count →
      prob_of_table count total alpha =
        (count : Rat) / ((total : Rat) + alpha)) ∧
    (∀ (total : Int) (alpha : Rat),
      prob_of_table 0 total alpha = alpha / ((total : Rat) + alpha)) ∧
    (∀ (count total : Int) (alpha : Real), 0 < count →
      log_prob_table count total alpha =
        Real.log ((count : Real) / ((total : Real) + alpha))) ∧
    (∀ (total : Int) (alpha : Real),
      log_prob_table 0 total alpha =
        Real.log (alpha / ((total : Real) + alpha))) := by
  refine ⟨?_, ?_, ?_, ?_⟩
  · intro count total alpha hc
    rw [prob_of_table, if_pos (by omega)]
  · intro total alpha
    rw [prob_of_table, if_neg (by simp)]
  · intro count total alpha hc
    rw [log_prob_table, if_pos (by omega)]
  · intro total alpha
    rw [log_prob_table, if_neg (by simp)]

/-- Witness for C6 at `count = 2`, `total = 3`, `alpha = 1`. -/
theorem c6_table_prior_witness :
    (0 : Int) < 2 ∧
      prob_of_table 2 3 1 = ((2 : Int) : Rat) / (((3 : Int) : Rat) + 1) ∧
      prob_of_table 0 3 1 = 1 / (((3 : Int) : Rat) + 1) ∧
      (0 : Int) < 2 ∧
      log_prob_table 2 3 1 =
        Real.log (((2 : Int) : Real) / (((3 : Int) : Real) + 1)) ∧
      log_prob_table 0 3 1 = Real.log (1 / (((3 : Int) : Real) + 1)) :=
  ⟨by decide, c6_table_prior.1 2 3 1 (by decide),
    c6_table_prior.2.1 3 1, by decide,
    c6_table_prior.2.2.1 2 3 1 (by decide), c6_table_prior.2.2.2 3 1⟩

/-! ### Claim theorems: the log-space sampler -/

theorem sum_map_exp_shift (L : List (Real × Nat)) (c : Real) :
    ((L.map (fun p => Real.exp (p.1 - c))).sum) =
      Real.exp (-c) * ((L.map (fun p => Real.exp p.1)).sum) := by
  induction L with
  | nil => simp
  | cons p rest ih =>
    simp only [List.map_cons, List.sum_cons]
    rw [ih, Real.exp_sub, Real.exp_neg]
    ring

theorem sum_map_exp_pos (L : List (Real × Nat)) (h : L ≠ []) :
    0 < ((L.map (fun p => Real.exp p.1)).sum) := by
  rcases L with _ | ⟨p, rest⟩
  · exact absurd rfl h
  · simp only [List.map_cons, List.sum_cons]
    have hr : 0 ≤ ((rest.map (fun p => Real.exp p.1)).sum) :=
      List.sum_nonneg (by
        intro x hx
        rcases List.mem_map.1 hx with ⟨q, _, rfl⟩
        exact (Real.exp_pos _).le)
    linarith [Real.exp_pos p.1]

theorem shift_log_sum_exp (L : List (Real × Nat)) (h : L ≠ []) (c : Real) :
    c + Real.log ((L.map (fun p => Real.exp (p.1 - c))).sum) =
      Real.log ((L.map (fun p => Real.exp p.1)).sum) := by
  rw [sum_map_exp_shift,
    Real.log_mul (Real.exp_ne_zero _) (ne_of_gt (sum_map_exp_pos L h)),
    Real.log_exp]
  ring

/-- C4 counterexample: candidates with log-weights `0` (id 0) and `1`
(id 1) are pushed as `[0,0]`, `[1,1]`; JavaScript's comparator-less sort
compares the strings `"0,0" < "1,1"` and leaves the array unchanged, so the
source's variable `max` (`log_un_ps[0][0]`, i.e. `log_sample_shift` of the
post-sort array) is `0` — strictly below the candidate log-weight `1`
present in the list, so not the maximum of the candidates' log-weights. -/
theorem c4_shift_is_not_max :
    log_sample_shift [((0 : Real), 0), ((1 : Real), 1)] = 0 ∧
      ((1 : Real), 1) ∈ [((0 : Real), 0), ((1 : Real), 1)] ∧
      log_sample_shift [((0 : Real), 0), ((1 : Real), 1)] < 1 := by
  have hshift : log_sample_shift [((0 : Real), 0), ((1 : Real), 1)] = 0 := by
    rw [log_sample_shift]
    simp
  exact ⟨hshift, by simp, by rw [hshift]; norm_num⟩

/-- C4 (corrected): the stabilizing constant the code uses is whatever
candidate the string-order sort places first — a candidate log-weight, but
not in general the maximum (see the counterexample) — yet for EVERY
permutation `sorted` of the candidate list that the sort could produce, the
log-normalizer computed from that constant equals
`M + log(sum(exp(log_weight - M)))` over the candidates for every shift
`M`, in particular for `M` the maximum, because log-sum-exp is
shift-invariant in exact arithmetic. -/
theorem c4_log_normalizer (L sorted : List (Real × Nat))
    (hperm : sorted.Perm L) (hne : sorted ≠ []) :
    log_sample_shift sorted ∈ L.map Prod.fst ∧
    ∀ M : Real, log_norm_const sorted =
      M + Real.log ((L.map (fun p => Real.exp (p.1 - M))).sum) := by
  have hLne : L ≠ [] := by
    intro h0
    rw [h0] at hperm
    exact hne hperm.eq_nil
  constructor
  · rcases hs : sorted with _ | ⟨q0, t⟩
    · exact absurd hs hne
    · have hshift : log_sample_shift (q0 :: t) = q0.1 := by
        rw [log_sample_shift]
        simp
      have hq0L : q0 ∈ L := by
        rw [← hperm.mem_iff, hs]
        exact List.mem_cons_self _ _
      rw [hshift]
      exact List.mem_map_of_mem Prod.fst hq0L
  · intro M
    have hsum : (sorted.map
        (fun p => Real.exp (p.1 - log_sample_shift sorted))).sum =
        (L.map (fun p => Real.exp (p.1 - log_sample_shift sorted))).sum :=
      (hperm.map _).sum_eq
    rw [log_norm_const, hsum, shift_log_sum_exp L hLne,
      ← shift_log_sum_exp L hLne M]

/-- Witness for C4's theorem on a singleton candidate list (a one-element
array is unchanged by any sort), with shift `M = 5`. -/
theorem c4_log_normalizer_witness :
    (log_sample_shift [((3 : Real), 7)] ∈
        [((3 : Real), 7)].map Prod.fst) ∧
      log_norm_const [((3 : Real), 7)] =
        5 + Real.log (([((3 : Real), 7)].map
          (fun p => Real.exp (p.1 - 5))).sum) :=
  ⟨(c4_log_normalizer [((3 : Real), 7)] [((3 : Real), 7)] (List.Perm.refl _)
      (by simp)).1,
    (c4_log_normalizer [((3 : Real), 7)] [((3 : Real), 7)] (List.Perm.refl _)
      (by simp)).2 5⟩

theorem logGo_eq_sampleGoR (c : Real) (u S : Real) (hu : 0 < u)
    (hS : 0 < S) :
    ∀ (rest : List (Nat × Real)) (P : Real), (∀ p ∈ rest, 0 < p.2) →
      0 ≤ P →
      logGo c (Real.log S) (Real.log u)
        (rest.map (fun p => (Real.log p.2, p.1))) (P / Real.exp c) =
      sampleGoR rest (u * S - P)
  | [], P, _, _ => by simp [logGo, sampleGoR]
  | (k, p) :: rest, P, hpos, hP => by
    have hp : 0 < p := hpos (k, p) (List.mem_cons_self _ _)
    have hPp : 0 < P + p := by linarith
    have hacc : P / Real.exp c + Real.exp (Real.log p - c) =
        (P + p) / Real.exp c := by
      rw [Real.exp_sub, Real.exp_log hp, div_add_div_same]
    rw [List.map_cons, logGo, hacc]
    have hcond : (Real.log u < c + Real.log ((P + p) / Real.exp c) -
        Real.log S) ↔ (u * S - P - p < 0) := by
      rw [Real.log_div (ne_of_gt hPp) (Real.exp_ne_zero c), Real.log_exp]
      constructor
      · intro h
        have h2 : Real.log u < Real.log ((P + p) / S) := by
          rw [Real.log_div (ne_of_gt hPp) (ne_of_gt hS)]
          linarith
        have h3 := (Real.log_lt_log_iff hu (by positivity)).1 h2
        rw [lt_div_iff₀ hS] at h3
        linarith
      · intro h
        have h3 : u < (P + p) / S := by
          rw [lt_div_iff₀ hS]
          linarith
        have h2 := Real.log_lt_log hu h3
        rw [Real.log_div (ne_of_gt hPp) (ne_of_gt hS)] at h2
        linarith
    by_cases hlt : u * S - P - p < 0
    · rw [if_pos (hcond.2 hlt), sampleGoR, if_pos hlt]
    · rw [if_neg (fun hh => hlt (hcond.1 hh)), sampleGoR, if_neg hlt]
      have hrec := logGo_eq_sampleGoR c u S hu hS rest (P + p)
        (fun q hq => hpos q (List.mem_cons_of_mem _ hq)) (le_of_lt hPp)
      rw [show u * S - P - p = u * S - (P + p) from by ring]
      exact hrec

/-- C5 (corrected): both samplers return the first candidate, in their
respective iteration orders, whose cumulative normalized probability exceeds
the uniform draw `u`.  Whenever the `log_un_ps.sort()` call leaves the
candidate order unchanged — the post-sort array handed to `log_sample` is
the array built in the linear sampler's key order, here
`l.map (fun p => (Real.log p.2, p.1))` — the log-probability sampler
selects exactly the candidate the linear sampler selects, for equivalent
positive weights and the same draw.  (When the sort does reorder the
candidates the two samplers can disagree; see the counterexample.) -/
theorem c5_sample_log_sample_agree (l : List (Nat × Real)) (u : Real)
    (hpos : ∀ p ∈ l, 0 < p.2) (hu : 0 < u) :
    log_sample (l.map (fun p => (Real.log p.2, p.1))) u = sampleR l u := by
  rcases l with _ | ⟨⟨k0, p0⟩, rest⟩
  · rw [log_sample, sampleR]
    simp [logGo, sampleGoR]
  · have hp0 : 0 < p0 := hpos (k0, p0) (List.mem_cons_self _ _)
    have hS : 0 < ((((k0, p0) :: rest).map Prod.snd).sum) := by
      simp only [List.map_cons, List.sum_cons]
      have hr : 0 ≤ ((rest.map Prod.snd).sum) :=
        List.sum_nonneg (by
          intro x hx
          rcases List.mem_map.1 hx with ⟨q, hq, rfl⟩
          exact (hpos q (List.mem_cons_of_mem _ hq)).le)
      linarith
    have hshift : log_sample_shift
        (((k0, p0) :: rest).map (fun p => (Real.log p.2, p.1))) =
        Real.log p0 := by
      rw [log_sample_shift]
      simp
    have hmapeqexp : ((((k0, p0) :: rest).map
        (fun p => (Real.log p.2, p.1))).map (fun q => Real.exp q.1)) =
        ((k0, p0) :: rest).map Prod.snd := by
      rw [List.map_map]
      apply List.map_congr_left
      intro q hq
      show Real.exp (Real.log q.2) = q.2
      exact Real.exp_log (hpos q hq)
    have hnorm : log_norm_const
        (((k0, p0) :: rest).map (fun p => (Real.log p.2, p.1))) =
        Real.log ((((k0, p0) :: rest).map Prod.snd).sum) := by
      rw [log_norm_const, hshift,
        shift_log_sum_exp _ (by simp) (Real.log p0), hmapeqexp]
    have hwalk := logGo_eq_sampleGoR (Real.log p0) u
      ((((k0, p0) :: rest).map Prod.snd).sum) hu hS ((k0, p0) :: rest) 0
      hpos le_rfl
    rw [zero_div, sub_zero] at hwalk
    rw [log_sample, hshift, hnorm, hwalk, sampleR]
    rcases hgo : sampleGoR ((k0, p0) :: rest)
        (u * ((((k0, p0) :: rest).map Prod.snd).sum)) with _ | k
    · simp only [hgo]
      rw [List.getLast?_map]
      cases hlast : ((k0, p0) :: rest).getLast? <;> simp [hlast]
    · simp only [hgo]

/-- C5 counterexample: candidates `0 ↦ e⁻²` and `1 ↦ e⁻¹⁰` (log-weights
`-2`, `-10`, an equivalent weight set) with the same uniform draw
`u = 1/10000 ∈ (0,1)`.  The linear sampler walks the candidates in key
order `0, 1` and selects `0`.  The log module pushes
`[[-2,0], [-10,1]]` and sorts it with JavaScript's comparator-less sort,
which compares the strings `"-10,1" < "-2,0"` (at the second character,
`'1' < '2'`) and so reorders the array to `[[-10,1], [-2,0]]` — the
post-sort array passed to the embedded `log_sample` below; the log sampler
walks candidate `1` first and selects `1`. -/
theorem c5_linear_vs_log_sampler_counterexample :
    Real.log (Real.exp (-2)) = -2 ∧ Real.log (Real.exp (-10)) = -10 ∧
      (0 : Real) < 1 / 10000 ∧ (1 / 10000 : Real) < 1 ∧
      sampleR [(0, Real.exp (-2)), (1, Real.exp (-10))] (1 / 10000) = 0 ∧
      log_sample [((-10 : Real), 1), ((-2 : Real), 0)] (1 / 10000) = 1 := by
  have h2pos := Real.exp_pos (-2 : Real)
  have h10pos := Real.exp_pos (-10 : Real)
  have hlt : Real.exp (-10 : Real) < Real.exp (-2) :=
    Real.exp_lt_exp.mpr (by norm_num)
  have hexp8 : Real.exp (8 : Real) < 9999 := by
    have h1 : Real.exp (8 : Real) = Real.exp 1 ^ 8 := by
      rw [← Real.exp_nat_mul]
      norm_num
    have h2 : Real.exp 1 ^ 8 < 2.7182818286 ^ 8 :=
      pow_lt_pow_left₀ Real.exp_one_lt_d9 (Real.exp_pos 1).le (by norm_num)
    rw [h1]
    calc Real.exp 1 ^ 8 < 2.7182818286 ^ 8 := h2
      _ < 9999 := by norm_num
  have hm : Real.exp (-2 : Real) = Real.exp 8 * Real.exp (-10) := by
    rw [← Real.exp_add]
    norm_num
  refine ⟨Real.log_exp _, Real.log_exp _, by norm_num, by norm_num, ?_, ?_⟩
  · have hcond : (1 / 10000 : Real) *
        (([(0, Real.exp (-2 : Real)), (1, Real.exp (-10))].map
          Prod.snd).sum) - Real.exp (-2) < 0 := by
      simp only [List.map_cons, List.map_nil, List.sum_cons, List.sum_nil,
        add_zero]
      linarith
    rw [sampleR, sampleGoR, if_pos hcond]
  · have hshift : log_sample_shift [((-10 : Real), 1), ((-2 : Real), 0)] =
        (-10 : Real) := by
      rw [log_sample_shift]
      simp
    have hS : (0 : Real) < Real.exp (-10) + Real.exp (-2) := by positivity
    have hnorm : log_norm_const [((-10 : Real), 1), ((-2 : Real), 0)] =
        Real.log (Real.exp (-10) + Real.exp (-2)) := by
      rw [log_norm_const, hshift,
        shift_log_sum_exp [((-10 : Real), 1), ((-2 : Real), 0)] (by simp)
          (-10)]
      norm_num
    have hmapform : [((-10 : Real), 1), ((-2 : Real), 0)] =
        ([(1, Real.exp (-10 : Real)), (0, Real.exp (-2 : Real))].map
          (fun p => (Real.log p.2, p.1))) := by
      simp [Real.log_exp]
    have hwalk := logGo_eq_sampleGoR (-10 : Real) (1 / 10000)
      (Real.exp (-10) + Real.exp (-2)) (by norm_num) hS
      [(1, Real.exp (-10 : Real)), (0, Real.exp (-2 : Real))] 0
      (by
        intro p hp
        rcases List.mem_cons.1 hp with rfl | hp2
        · exact h10pos
        · rcases List.mem_cons.1 hp2 with rfl | hp3
          · exact h2pos
          · simp at hp3)
      le_rfl
    rw [zero_div, sub_zero] at hwalk
    have hsum : Real.log (Real.exp (-10) + Real.exp (-2)) =
        Real.log (([(1, Real.exp (-10 : Real)),
          (0, Real.exp (-2 : Real))].map Prod.snd).sum) := by
      simp
    have hkey : (1 / 10000 : Real) *
        (Real.exp (-10) + Real.exp (-2)) - Real.exp (-10) < 0 := by
      have hX : Real.exp 8 * Real.exp (-10) < 9999 * Real.exp (-10) :=
        mul_lt_mul_of_pos_right hexp8 h10pos
      rw [hm]
      linarith
    have hgo : sampleGoR [(1, Real.exp (-10 : Real)),
        (0, Real.exp (-2 : Real))]
        ((1 / 10000) * (Real.exp (-10) + Real.exp (-2))) = some 1 := by
      rw [sampleGoR, if_pos hkey]
    rw [log_sample, hshift, hnorm, hmapform, hwalk, hgo]

/-- Witness for C5's theorem: candidates `0 ↦ 1`, `1 ↦ 2`.  The log module
pushes `[[0,0], [0.6931471805599453,1]]`; JavaScript's string sort keeps
that order (`"0,0" < "0.6931471805599453,1"`, since `','` precedes `'.'`),
so the post-sort array is the built array, and the two samplers agree at
`u = 1/2`. -/
theorem c5_sample_log_sample_agree_witness :
    log_sample ([(0, (1 : Real)), (1, (2 : Real))].map
        (fun p => (Real.log p.2, p.1))) (1 / 2) =
      sampleR [(0, (1 : Real)), (1, (2 : Real))] (1 / 2) := by
  apply c5_sample_log_sample_agree
  · intro p hp
    rcases List.mem_cons.1 hp with rfl | hp2
    · norm_num
    · rcases List.mem_cons.1 hp2 with rfl | hp3
      · norm_num
      · simp at hp3
  · norm_num
